import Mathlib

/-!
Shallow embedding of the date/statistics/grid core of the dot-goal-journal
repository (a React Native goal tracker), together with proofs about it.

Calendar dates are embedded as serial day numbers (`Nat`): the number of days
since 0000-01-01 in the proleptic Gregorian calendar, which is exactly the
calendar JS `Date` implements for local dates.  The `YYYY-MM-DD` strings of
the source are in order-preserving bijection with these serials, string
comparison on them coinciding with `≤` on serials.  Months are indexed JS
style, 0 = January .. 11 = December; a month of the calendar is globally
identified by its index `K = 12 * year + month`.

Ledger keys `${goalId}_${date}` are modelled as (goalId, serial-date) pairs;
since the date half always has the fixed 10-character `YYYY-MM-DD` shape, the
string key is in bijection with the pair.  JS `Math.round` on the involved
percentage expressions is modelled as exact rational rounding
(round half towards +∞), idealising the double-precision evaluation.
-/

/-- Gregorian leap-year test (as JS `Date` implements it, proleptic). -/
def isLeap (y : Nat) : Bool :=
  y % 4 == 0 && (y % 100 != 0 || y % 400 == 0)

/-- Number of days in year `y`. -/
def daysInYear (y : Nat) : Nat :=
  if isLeap y then 366 else 365

/-- Serial number of Jan 1 of year `y`: days from 0000-01-01 to `y`-01-01. -/
def daysBeforeYear (y : Nat) : Nat :=
  365 * y + (y + 3) / 4 - (y + 99) / 100 + (y + 399) / 400

/-- Days from Jan 1 of a year with leap flag `leap` to the first day of its
0-based month `m` (month 12 meaning the following Jan 1): Jan and Feb
directly, the 153-day five-month cycle formula from March on. -/
def daysBeforeMonth (leap : Bool) (m : Nat) : Nat :=
  if m < 2 then 31 * m
  else (153 * (m - 2) + 2) / 5 + 59 + (if leap then 1 else 0)

/-- Serial day number of year `y`, 0-based month `m`, 1-based day `d`. -/
def toSerial (y m d : Nat) : Nat :=
  daysBeforeYear y + daysBeforeMonth (isLeap y) m + (d - 1)

/-- Serial of the first day of the month with global index `K = 12*y + m`. -/
def firstSerial (K : Nat) : Nat :=
  daysBeforeYear (K / 12) + daysBeforeMonth (isLeap (K / 12)) (K % 12)

/-- The year containing serial day `z` (the largest `y` with
`daysBeforeYear y ≤ z`), computed from the average-year-length guess
`400*z/146097` with a one-step correction in either direction. -/
def yearOf (z : Nat) : Nat :=
  if z < daysBeforeYear (400 * z / 146097 + 1) then
    if daysBeforeYear (400 * z / 146097) ≤ z then 400 * z / 146097
    else 400 * z / 146097 - 1
  else 400 * z / 146097 + 1

/-- The 0-based month containing day-of-year `doy` of a year with leap flag
`leap`: Jan and Feb directly, the inverse five-month cycle formula after. -/
def monthOfYearDay (leap : Bool) (doy : Nat) : Nat :=
  if doy < 31 then 0
  else if doy < 59 + (if leap then 1 else 0) then 1
  else (5 * (doy - 59 - (if leap then 1 else 0)) + 2) / 153 + 2

/-- Global month index `12*year + month` of the month containing serial `z`
(what JS `getFullYear`/`getMonth` read off a `Date`). -/
def monthIdxOf (z : Nat) : Nat :=
  let y := yearOf z
  12 * y + monthOfYearDay (isLeap y) (z - daysBeforeYear y)

/-- Day-of-week of serial `z`, Monday-based: 0 = Monday .. 6 = Sunday.
0000-01-01 is a Saturday (index 5). -/
def dowMon (z : Nat) : Nat :=
  (z + 5) % 7

/-- Embeds `getMondayOfWeek` (WeeklyDotGrid.tsx): the Monday of the week
containing `z`.  Exact for `z ≥ 2` (every date from 0000-01-03 on). -/
def getMondayOfWeek (z : Nat) : Nat :=
  z - dowMon z

/-- Embeds `getThursdayOfWeek` (WeeklyDotGrid.tsx): Monday + 3 days. -/
def getThursdayOfWeek (monday : Nat) : Nat :=
  monday + 3

/-- Embeds `getDateRange` (src/utils/dates.ts) on validly parsed, ordered
inputs: `eachDayOfInterval` yields every day from `s` to `e` inclusive. -/
def getDateRange (s e : Nat) : List Nat :=
  (List.range (e + 1 - s)).map (s + ·)

/-- Embeds `getDateRange` including the behavior date-fns (v3/v4, as bundled
by this 2025 Expo project) gives it at the validation boundary: `parseISO`
yields an Invalid Date (`none`) for an unparseable string instead of raising,
`eachDayOfInterval` returns `[]` when an endpoint is invalid, and iterates
downward (descending result, no exception) when start > end. -/
def getDateRangeJS : Option Nat → Option Nat → List Nat
  | some s, some e =>
      if s ≤ e then getDateRange s e else (getDateRange e s).reverse
  | _, _ => []

/-- A day record as the read side sees it (`Record<string, { isCompleted }>`
in `groupIntoWeeks`'s signature). -/
structure LedgerEntry where
  isCompleted : Bool
deriving DecidableEq

/-- The completion ledger, keyed by goal id and serial date (modelling the
`${goalId}_${date}` string keys, with which the pairs are in bijection). -/
def Ledger : Type :=
  String → Nat → Option LedgerEntry

/-- The `days[key]?.isCompleted ?? false` read used throughout the source. -/
def ledgerCompleted (led : Ledger) (goalId : String) (date : Nat) : Bool :=
  ((led goalId date).map (·.isCompleted)).getD false

/-- The backward walk of `calculateCurrentStreak` (src/utils/streak.ts) over
the reversed relevant dates: completed days count, an uncompleted `today` with
an earlier day remaining is skipped (`continue`), anything else breaks. -/
def streakWalk (c : Nat → Bool) (today : Nat) : List Nat → Nat
  | [] => 0
  | d :: rest =>
      if c d then streakWalk c today rest + 1
      else if d = today ∧ rest ≠ [] then streakWalk c today rest
      else 0

/-- Embeds `calculateCurrentStreak` (src/utils/streak.ts). -/
def calculateCurrentStreak (led : Ledger) (goalId : String)
    (startDate endDate today : Nat) : Nat :=
  let allDates := getDateRange startDate endDate
  let relevantDates := allDates.filter fun d => d < today ∨ d = today
  streakWalk (ledgerCompleted led goalId) today relevantDates.reverse

/-- The chronological scan of `calculateLongestStreak` (hooks/useStats.ts):
state is (current run, best run so far). -/
def longestScan (c : Nat → Bool) (l : List Nat) : Nat × Nat :=
  l.foldl
    (fun acc d =>
      if c d then (acc.1 + 1, max acc.2 (acc.1 + 1)) else (0, acc.2))
    (0, 0)

/-- Embeds `calculateLongestStreak` (hooks/useStats.ts). -/
def calculateLongestStreak (led : Ledger) (goalId : String)
    (startDate endDate today : Nat) : Nat :=
  let allDates := getDateRange startDate endDate
  let relevantDates := allDates.filter fun d => d ≤ today
  (longestScan (ledgerCompleted led goalId) relevantDates).2

/-- Embeds `isGoalFullyCompleted` (src/utils/streak.ts): every date of the
full range has a completed entry; `today` is not consulted. -/
def isGoalFullyCompleted (led : Ledger) (goalId : String)
    (startDate endDate : Nat) : Bool :=
  (getDateRange startDate endDate).all fun d => ledgerCompleted led goalId d

/-- `Math.round ((n / d) * 100)` for natural `n`, `d` (`d > 0`), evaluated as
the exact rational rounding `⌊100*n/d + 1/2⌋`. -/
def jsRoundPct (n d : Nat) : Nat :=
  (200 * n + d) / (2 * d)

/-- Result record of `calculateCompletionStats`. -/
structure CompletionStats where
  totalCompleted : Nat
  totalMissed : Nat
  completionRate : Nat
  pastDays : Nat
deriving DecidableEq

/-- Embeds `calculateCompletionStats` (hooks/useStats.ts): count completed and
missed over the strictly-past dates by a fold (the source's for-loop), add
today to `totalCompleted` if in range and completed, and compute the rate only
when there is at least one past day. -/
def calculateCompletionStats (led : Ledger) (goalId : String)
    (startDate endDate today : Nat) : CompletionStats :=
  let allDates := getDateRange startDate endDate
  let pastDates := allDates.filter fun d => d < today
  let counts :=
    pastDates.foldl
      (fun (acc : Nat × Nat) d =>
        if ledgerCompleted led goalId d then (acc.1 + 1, acc.2)
        else (acc.1, acc.2 + 1))
      (0, 0)
  let totalCompleted :=
    if allDates.contains today ∧ ledgerCompleted led goalId today then
      counts.1 + 1
    else counts.1
  let pastDays := pastDates.length
  let completionRate :=
    if 0 < pastDays then
      jsRoundPct totalCompleted
        (pastDays + if allDates.contains today then 1 else 0)
    else 0
  ⟨totalCompleted, counts.2, completionRate, pastDays⟩

/-- Result of `getWeekOfMonth` (WeeklyDotGrid.tsx). -/
structure WeekMonth where
  weekOfMonth : Nat
  month : Nat
  year : Nat
deriving DecidableEq

/-- The `adjustedFirstMonday` computation inside `getWeekOfMonth`
(WeeklyDotGrid.tsx), depending only on the month index `K` of the week's
Thursday: the Monday of the week containing the 1st of month `K`, pushed one
week later when that week's Thursday still lies in the previous month.  The
source compares only `getMonth()` numbers (not years) in that push test,
hence the `% 12` comparison. -/
def adjustedFirstMonday (K : Nat) : Nat :=
  let firstOfMonth := firstSerial K
  let firstMonday := getMondayOfWeek firstOfMonth
  if monthIdxOf (getThursdayOfWeek firstMonday) % 12 ≠ K % 12 then
    firstMonday + 7
  else firstMonday

/-- Embeds `getWeekOfMonth` (WeeklyDotGrid.tsx): the week of the Monday `μ`
belongs to the month containing its Thursday; the week-of-month index counts
whole weeks from the adjusted first Monday of that month.  The source obtains
the week difference by rounding the millisecond difference, exact here. -/
def getWeekOfMonth (μ : Nat) : WeekMonth :=
  let thursday := getThursdayOfWeek μ
  let K := monthIdxOf thursday
  ⟨(μ - adjustedFirstMonday K) / 7, K % 12, K / 12⟩

/-- A day cell of the weekly grid (`WeekDayData` of WeekDot.tsx): a real
in-range day or a placeholder slot. -/
structure WeekDayData where
  date : Nat
  isCompleted : Bool
  isFuture : Bool
  isLastDay : Bool
  isToday : Bool
  isPlaceholder : Bool
deriving DecidableEq

/-- A week of the grid (`WeekData` of WeeklyDotGrid.tsx; the `id` label is
omitted). -/
structure WeekData where
  weekNumber : Nat
  days : List WeekDayData
  startDate : Nat
  month : Nat
  year : Nat
deriving DecidableEq

/-- A month row of the grid (`MonthRowData` of WeeklyDotGrid.tsx; the
`monthKey`/`monthLabel` strings are determined by `month`/`year` and
omitted). -/
structure MonthRowData where
  month : Nat
  year : Nat
  weeks : List (Option WeekData)
deriving DecidableEq

/-- The day cell `groupIntoWeeks` (WeeklyDotGrid.tsx) puts into slot `i`
(0 = Monday .. 6 = Sunday) of the week starting at `monday`: the real cell of
date `monday + i` when some range date lands in this week at this index
(which forces that date to be `monday + i`), and an `isPlaceholder` cell for
the same calendar date otherwise.  The real cell's last-day flag compares the
date against the last element of the range. -/
def dayCellFor (dates : List Nat) (led : Ledger) (goalId : String)
    (today monday i : Nat) : WeekDayData :=
  if getMondayOfWeek (monday + i) = monday ∧ dates.contains (monday + i) then
    { date := monday + i
      isCompleted := ledgerCompleted led goalId (monday + i)
      isFuture := today < monday + i
      isLastDay := dates.getLast? = some (monday + i)
      isToday := monday + i = today
      isPlaceholder := false }
  else
    { date := monday + i
      isCompleted := false
      isFuture := false
      isLastDay := false
      isToday := false
      isPlaceholder := true }

/-- The `WeekData` that `groupIntoWeeks` builds for the week of a given
`monday`: an array of seven day cells positioned by day-of-week index, with
placeholders for the days of the week outside the goal range, stamped with
`getWeekOfMonth`. -/
def weekFor (dates : List Nat) (led : Ledger) (goalId : String)
    (today : Nat) (monday : Nat) : WeekData :=
  { weekNumber := (getWeekOfMonth monday).weekOfMonth
    days := (List.range 7).map (dayCellFor dates led goalId today monday)
    startDate := monday
    month := (getWeekOfMonth monday).month
    year := (getWeekOfMonth monday).year }

/-- Embeds `groupIntoWeeks` (WeeklyDotGrid.tsx): group the range dates by the
Monday of their week and emit one seven-slot `WeekData` per Monday in
ascending order.  The source accumulates first-occurrence-ordered map keys
and sorts them; as the dates are ascending this equals the sorted
deduplicated Monday list. -/
def groupIntoWeeks (dates : List Nat) (led : Ledger) (goalId : String)
    (today : Nat) : List WeekData :=
  (((dates.map getMondayOfWeek).dedup).insertionSort (· ≤ ·)).map
    (weekFor dates led goalId today)

/-- Embeds `getWeekColumnNumbers` (WeeklyDotGrid.tsx): 1-based column numbers
up to the maximal Thursday-based week-of-month index, at least five columns. -/
def getWeekColumnNumbers (weeks : List WeekData) : List Nat :=
  let maxWeekOfMonth := weeks.foldl (fun m w => max m w.weekNumber) 4
  (List.range (maxWeekOfMonth + 1)).map (· + 1)

/-- Embeds `getAllMonths` (WeeklyDotGrid.tsx): one entry per month from the
start date's month to the end date's month inclusive (the source walks
first-of-month dates while they are `≤ end`). -/
def getAllMonths (startDate endDate : Nat) : List (Nat × Nat) :=
  let ks := monthIdxOf startDate
  let ke := monthIdxOf endDate
  (List.range (ke + 1 - ks)).map fun i => ((ks + i) % 12, (ks + i) / 12)

/-- Embeds `weekHasDaysInMonth` (WeeklyDotGrid.tsx): some of the seven
calendar days of the week starting at `monday` lies in the month with global
index `K` (the source compares `getMonth()` and `getFullYear()` against the
target pair, which is exactly the index `K = 12*year + month`). -/
def weekHasDaysInMonth (monday K : Nat) : Bool :=
  (List.range 7).any fun i => monthIdxOf (monday + i) == K

/-- Embeds `getWeekOfMonthForDisplay` (WeeklyDotGrid.tsx): whole weeks from
the Monday of the week containing the 1st of month `K` (no Thursday
adjustment here) to `monday`; the source's `Math.max(0, diffWeeks)` clamp is
realised by the truncated `Nat` subtraction. -/
def getWeekOfMonthForDisplay (monday K : Nat) : Nat :=
  (monday - getMondayOfWeek (firstSerial K)) / 7

/-- Embeds `adjustWeekForMonth` (WeeklyDotGrid.tsx): a copy of the week whose
day cells outside month `K` are masked to placeholders (keeping their
dates). -/
def adjustWeekForMonth (week : WeekData) (K : Nat) : WeekData :=
  { week with
      days := week.days.map fun day =>
        if monthIdxOf day.date ≠ K then
          { day with
              isCompleted := false
              isFuture := false
              isLastDay := false
              isToday := false
              isPlaceholder := true }
        else day }

/-- The per-month map lookup of `organizeIntoGrid` (WeeklyDotGrid.tsx): the
month `K = 12*year + month` receives every week that has a calendar day in
it, keyed by the month-relative display index, masked by `adjustWeekForMonth`;
`Map.set` makes the last write win on key collisions, hence the reversed
scan. -/
def lookupWeekForMonth (weeks : List WeekData) (month year w : Nat) :
    Option WeekData :=
  (weeks.reverse.find? fun wk =>
    weekHasDaysInMonth wk.startDate (12 * year + month) &&
      getWeekOfMonthForDisplay wk.startDate (12 * year + month) == w).map
    fun wk => adjustWeekForMonth wk (12 * year + month)

/-- Embeds `organizeIntoGrid` (WeeklyDotGrid.tsx): one row per month, one
cell per column; each cell holds the week whose month-relative display index
is `column − 1`, adjusted for that month, when any — so a week that spans two
months appears in both months' rows (placeholder-masked), provided its
display index falls within the columns. -/
def organizeIntoGrid (weeks : List WeekData) (weekColumnNumbers : List Nat)
    (months : List (Nat × Nat)) : List MonthRowData :=
  months.map fun monthInfo =>
    { month := monthInfo.1
      year := monthInfo.2
      weeks := weekColumnNumbers.map fun colNum =>
        lookupWeekForMonth weeks monthInfo.1 monthInfo.2 (colNum - 1) }

/-- The full grid pipeline as `WeeklyDotGrid` runs it (WeeklyDotGrid.tsx):
expand the range, group into weeks, derive the column numbers and month rows. -/
def buildGrid (led : Ledger) (goalId : String)
    (startDate endDate today : Nat) : List MonthRowData :=
  let dateRange := getDateRange startDate endDate
  let weeks := groupIntoWeeks dateRange led goalId today
  let columnNumbers := getWeekColumnNumbers weeks
  let months := getAllMonths startDate endDate
  organizeIntoGrid weeks columnNumbers months

/-- Serial date `d` appears as the date of some day cell (real or
placeholder) somewhere in the grid. -/
def appearsInGrid (grid : List MonthRowData) (d : Nat) : Prop :=
  ∃ row ∈ grid, ∃ cell ∈ row.weeks, ∃ wk, cell = some wk ∧
    ∃ dc ∈ wk.days, dc.date = d

instance (grid : List MonthRowData) (d : Nat) :
    Decidable (appearsInGrid grid d) := by
  unfold appearsInGrid
  infer_instance

/-- Serial date `d` appears as a real (non-placeholder) day cell somewhere in
the grid. -/
def appearsRealInGrid (grid : List MonthRowData) (d : Nat) : Prop :=
  ∃ row ∈ grid, ∃ cell ∈ row.weeks, ∃ wk, cell = some wk ∧
    ∃ dc ∈ wk.days, dc.date = d ∧ dc.isPlaceholder = false

instance (grid : List MonthRowData) (d : Nat) :
    Decidable (appearsRealInGrid grid d) := by
  unfold appearsRealInGrid
  infer_instance

/-- A stored day record (`DayEntry` of src/types, as the day store keeps it). -/
structure DayEntry where
  goalId : String
  date : String
  isCompleted : Bool
  completedAt : Option String
  note : String
deriving DecidableEq

/-- The day store's `days` record, keyed by `${goalId}_${date}`. -/
def DayMap : Type :=
  String → Option DayEntry

/-- Embeds `createKey` (stores/dayStore.ts). -/
def createKey (goalId date : String) : String :=
  goalId ++ "_" ++ date

/-- Embeds `createEmptyEntry` (stores/dayStore.ts). -/
def createEmptyEntry (goalId date : String) : DayEntry :=
  { goalId := goalId, date := date, isCompleted := false
    completedAt := none, note := "" }

/-- Embeds `toggleCompletion` (stores/dayStore.ts); `now` stands for the
`new Date().toISOString()` read.  Returns the new completion state together
with the updated store. -/
def toggleCompletion (days : DayMap) (goalId date now : String) :
    Bool × DayMap :=
  let key := createKey goalId date
  let existing := days key
  let wasCompleted := ((existing.map (·.isCompleted)).getD false)
  let newCompleted := !wasCompleted
  ( newCompleted
  , fun k =>
      if k = key then
        some { existing.getD (createEmptyEntry goalId date) with
                 isCompleted := newCompleted
                 completedAt := if newCompleted then some now else none }
      else days k )

/-- Embeds `updateNote` (stores/dayStore.ts). -/
def updateNote (days : DayMap) (goalId date note : String) : DayMap :=
  let key := createKey goalId date
  let existing := days key
  fun k =>
    if k = key then
      some { existing.getD (createEmptyEntry goalId date) with note := note }
    else days k

/-- Embeds `clearGoalDays` (stores/dayStore.ts): delete every key starting
with `${goalId}_`. -/
def clearGoalDays (days : DayMap) (goalId : String) : DayMap :=
  fun k => if k.startsWith (goalId ++ "_") then none else days k

/-- Day-store states reachable from the empty store through the mutating
actions of dayStore.ts. -/
inductive ReachableDayMap : DayMap → Prop
  | empty : ReachableDayMap (fun _ => none)
  | toggle (days goalId date now) :
      ReachableDayMap days →
      ReachableDayMap (toggleCompletion days goalId date now).2
  | note (days goalId date note) :
      ReachableDayMap days →
      ReachableDayMap (updateNote days goalId date note)
  | clear (days goalId) :
      ReachableDayMap days →
      ReachableDayMap (clearGoalDays days goalId)

/-- Count of consecutive completed entries from the head of a list of dates
(the claim's notion of counting until the first incomplete day). -/
def consecCompleted (c : Nat → Bool) (l : List Nat) : Nat :=
  (l.takeWhile c).length

/-- The current streak as claim C4 words it: walk the dates ≤ today from the
most recent backward, count consecutive completed entries, skipping an
uncompleted `today` once. -/
def specCurrentStreak (led : Ledger) (goalId : String)
    (startDate endDate today : Nat) : Nat :=
  let c := ledgerCompleted led goalId
  let walked :=
    ((getDateRange startDate endDate).filter fun d => d ≤ today).reverse
  match walked with
  | [] => 0
  | d :: rest =>
      if d = today ∧ ¬ c d then consecCompleted c rest
      else consecCompleted c walked

/-- `A` is the Monday of the first week whose Thursday falls in the month
with global index `K` (claim C6's description of the column-index origin). -/
def isFirstThuWeekMonday (A K : Nat) : Prop :=
  dowMon A = 0 ∧ monthIdxOf (getThursdayOfWeek A) = K ∧
    ∀ B, dowMon B = 0 → monthIdxOf (getThursdayOfWeek B) = K → A ≤ B

section CalendarLemmas

set_option maxHeartbeats 1000000

theorem isLeap_iff (y : Nat) :
    isLeap y = true ↔ y % 4 = 0 ∧ (y % 100 ≠ 0 ∨ y % 400 = 0) := by
  unfold isLeap
  simp [Bool.and_eq_true, Bool.or_eq_true, beq_iff_eq, bne_iff_ne]

theorem daysInYear_ge (y : Nat) : 365 ≤ daysInYear y := by
  unfold daysInYear
  split_ifs <;> omega

theorem daysInYear_le (y : Nat) : daysInYear y ≤ 366 := by
  unfold daysInYear
  split_ifs <;> omega

theorem daysBeforeYear_succ (y : Nat) :
    daysBeforeYear (y + 1) = daysBeforeYear y + daysInYear y := by
  rcases Bool.eq_false_or_eq_true (isLeap y) with h | h
  · have hd : daysInYear y = 366 := by unfold daysInYear; rw [h]; simp
    have hprop : y % 4 = 0 ∧ (y % 100 ≠ 0 ∨ y % 400 = 0) := (isLeap_iff y).mp h
    rw [hd]
    unfold daysBeforeYear
    rcases hprop.2 with h2 | h2
    · have h4 := hprop.1
      omega
    · have h4 := hprop.1
      omega
  · have hd : daysInYear y = 365 := by unfold daysInYear; rw [h]; simp
    have hprop : ¬ (y % 4 = 0 ∧ (y % 100 ≠ 0 ∨ y % 400 = 0)) := by
      rw [← isLeap_iff, h]; simp
    rw [hd]
    unfold daysBeforeYear
    by_cases h4 : y % 4 = 0
    · have h' : y % 100 = 0 ∧ y % 400 ≠ 0 := by tauto
      omega
    · omega

theorem daysBeforeYear_strictMono : StrictMono daysBeforeYear := by
  apply strictMono_nat_of_lt_succ
  intro y
  have h := daysBeforeYear_succ y
  have h' := daysInYear_ge y
  omega

theorem guess_hi (z : Nat) : z < daysBeforeYear (400 * z / 146097 + 2) := by
  unfold daysBeforeYear
  omega

theorem guess_lo (z : Nat) (h : 1 ≤ 400 * z / 146097) :
    daysBeforeYear (400 * z / 146097 - 1) ≤ z := by
  unfold daysBeforeYear
  omega

theorem yearOf_spec (z : Nat) :
    daysBeforeYear (yearOf z) ≤ z ∧ z < daysBeforeYear (yearOf z + 1) := by
  unfold yearOf
  split_ifs with h1 h2
  · exact ⟨h2, h1⟩
  · have hc : 1 ≤ 400 * z / 146097 := by
      by_contra hc
      have h0 : 400 * z / 146097 = 0 := by omega
      rw [h0] at h2
      exact h2 (by unfold daysBeforeYear; omega)
    refine ⟨guess_lo z hc, ?_⟩
    have he : 400 * z / 146097 - 1 + 1 = 400 * z / 146097 := by omega
    rw [he]
    omega
  · exact ⟨by omega, guess_hi z⟩

theorem yearOf_eq (z y : Nat) (h1 : daysBeforeYear y ≤ z)
    (h2 : z < daysBeforeYear (y + 1)) : yearOf z = y := by
  have hs := yearOf_spec z
  rcases Nat.lt_trichotomy (yearOf z) y with h | h | h
  · have hm := daysBeforeYear_strictMono.monotone (show yearOf z + 1 ≤ y by omega)
    omega
  · exact h
  · have hm := daysBeforeYear_strictMono.monotone (show y + 1 ≤ yearOf z by omega)
    omega

theorem daysBeforeMonth_mono_succ (leap : Bool) (m : Nat) (h : m < 12) :
    daysBeforeMonth leap m + 28 ≤ daysBeforeMonth leap (m + 1) ∧
      daysBeforeMonth leap (m + 1) ≤ daysBeforeMonth leap m + 31 := by
  rcases Bool.eq_false_or_eq_true leap with hL | hL <;> subst hL <;>
    simp only [daysBeforeMonth] <;> split_ifs <;> omega

theorem daysBeforeMonth_zero (leap : Bool) : daysBeforeMonth leap 0 = 0 := by
  simp [daysBeforeMonth]

theorem daysBeforeMonth_twelve (y : Nat) :
    daysBeforeMonth (isLeap y) 12 = daysInYear y := by
  rcases Bool.eq_false_or_eq_true (isLeap y) with hL | hL <;>
    rw [daysInYear, hL] <;> simp [daysBeforeMonth]

theorem monthOfYearDay_spec (leap : Bool) (doy : Nat)
    (h : doy < daysBeforeMonth leap 12) :
    daysBeforeMonth leap (monthOfYearDay leap doy) ≤ doy ∧
      doy < daysBeforeMonth leap (monthOfYearDay leap doy + 1) ∧
      monthOfYearDay leap doy < 12 := by
  rcases Bool.eq_false_or_eq_true leap with hL | hL <;> subst hL <;>
    simp only [daysBeforeMonth, monthOfYearDay] at h ⊢ <;>
    split_ifs at h ⊢ <;> omega

end CalendarLemmas

section MonthIndexLemmas

set_option maxHeartbeats 1000000

theorem firstSerial_succ (K : Nat) :
    firstSerial (K + 1) =
      daysBeforeYear (K / 12) + daysBeforeMonth (isLeap (K / 12)) (K % 12 + 1) := by
  by_cases h : K % 12 = 11
  · have h1 : (K + 1) / 12 = K / 12 + 1 := by omega
    have h2 : (K + 1) % 12 = 0 := by omega
    rw [firstSerial, h1, h2, daysBeforeMonth_zero, h, daysBeforeMonth_twelve,
      daysBeforeYear_succ]
    omega
  · have h1 : (K + 1) / 12 = K / 12 := by omega
    have h2 : (K + 1) % 12 = K % 12 + 1 := by omega
    rw [firstSerial, h1, h2]

theorem firstSerial_succ_bounds (K : Nat) :
    firstSerial K + 28 ≤ firstSerial (K + 1) ∧
      firstSerial (K + 1) ≤ firstSerial K + 31 := by
  rw [firstSerial, firstSerial_succ]
  have h := daysBeforeMonth_mono_succ (isLeap (K / 12)) (K % 12)
    (Nat.mod_lt _ (by norm_num))
  omega

theorem firstSerial_strictMono : StrictMono firstSerial := by
  apply strictMono_nat_of_lt_succ
  intro K
  have h := firstSerial_succ_bounds K
  omega

theorem monthIdxOf_spec (z : Nat) :
    firstSerial (monthIdxOf z) ≤ z ∧ z < firstSerial (monthIdxOf z + 1) := by
  have hy := yearOf_spec z
  have hsy := daysBeforeYear_succ (yearOf z)
  have hdoy : z - daysBeforeYear (yearOf z) < daysInYear (yearOf z) := by omega
  have hm := monthOfYearDay_spec (isLeap (yearOf z))
    (z - daysBeforeYear (yearOf z))
    (by rw [daysBeforeMonth_twelve]; exact hdoy)
  have hK : monthIdxOf z =
      12 * yearOf z +
        monthOfYearDay (isLeap (yearOf z)) (z - daysBeforeYear (yearOf z)) :=
    rfl
  have hdiv : monthIdxOf z / 12 = yearOf z := by omega
  have hmod : monthIdxOf z % 12 =
      monthOfYearDay (isLeap (yearOf z)) (z - daysBeforeYear (yearOf z)) := by
    omega
  constructor
  · rw [firstSerial, hdiv, hmod]
    omega
  · rw [firstSerial_succ, hdiv, hmod]
    omega

theorem monthIdxOf_eq (z K : Nat) (h1 : firstSerial K ≤ z)
    (h2 : z < firstSerial (K + 1)) : monthIdxOf z = K := by
  have hs := monthIdxOf_spec z
  rcases Nat.lt_trichotomy (monthIdxOf z) K with h | h | h
  · have hm := firstSerial_strictMono.monotone (show monthIdxOf z + 1 ≤ K by omega)
    omega
  · exact h
  · have hm := firstSerial_strictMono.monotone (show K + 1 ≤ monthIdxOf z by omega)
    omega

theorem monthIdxOf_mono (z1 z2 : Nat) (h : z1 ≤ z2) :
    monthIdxOf z1 ≤ monthIdxOf z2 := by
  by_contra hc
  have h1 := monthIdxOf_spec z1
  have h2 := monthIdxOf_spec z2
  have hm := firstSerial_strictMono.monotone
    (show monthIdxOf z2 + 1 ≤ monthIdxOf z1 by omega)
  omega

theorem monthIdxOf_firstSerial (K : Nat) : monthIdxOf (firstSerial K) = K :=
  monthIdxOf_eq _ _ le_rfl (firstSerial_strictMono (by omega))

theorem monthLen_ge (K : Nat) : firstSerial K + 28 ≤ firstSerial (K + 1) :=
  (firstSerial_succ_bounds K).1

end MonthIndexLemmas

section WeekLemmas

theorem dowMon_lt (z : Nat) : dowMon z < 7 := by
  unfold dowMon
  omega

theorem getMondayOfWeek_le (z : Nat) : getMondayOfWeek z ≤ z := by
  unfold getMondayOfWeek
  omega

theorem getMondayOfWeek_gt (z : Nat) : z < getMondayOfWeek z + 7 := by
  unfold getMondayOfWeek dowMon
  omega

theorem getMondayOfWeek_dow (z : Nat) (h : 2 ≤ z) :
    dowMon (getMondayOfWeek z) = 0 := by
  unfold getMondayOfWeek dowMon
  omega

theorem getMondayOfWeek_of_monday (z : Nat) (h : dowMon z = 0) :
    getMondayOfWeek z = z := by
  unfold getMondayOfWeek
  omega

theorem monday_mod_eq (a b : Nat) (ha : dowMon a = 0) (hb : dowMon b = 0) :
    a % 7 = b % 7 := by
  unfold dowMon at ha hb
  omega

theorem firstSerial_one : firstSerial 1 = 31 := by decide

theorem firstSerial_ge_31 (K : Nat) (h : 1 ≤ K) : 31 ≤ firstSerial K := by
  have hm := firstSerial_strictMono.monotone h
  rw [firstSerial_one] at hm
  exact hm

theorem monthIdxOf_thursday_near (K : Nat) (h : 1 ≤ K) :
    monthIdxOf (getThursdayOfWeek (getMondayOfWeek (firstSerial K))) = K ∨
      monthIdxOf (getThursdayOfWeek (getMondayOfWeek (firstSerial K))) = K - 1 := by
  have hF := firstSerial_ge_31 K h
  have hle := getMondayOfWeek_le (firstSerial K)
  have hgt := getMondayOfWeek_gt (firstSerial K)
  have hlen := monthLen_ge K
  have hlen' := monthLen_ge (K - 1)
  have hk1 : K - 1 + 1 = K := by omega
  rw [hk1] at hlen'
  have hup : monthIdxOf (getThursdayOfWeek (getMondayOfWeek (firstSerial K))) ≤ K := by
    have hmono := monthIdxOf_mono (getThursdayOfWeek (getMondayOfWeek (firstSerial K)))
      (firstSerial K + 3)
      (by unfold getThursdayOfWeek; omega)
    have heq : monthIdxOf (firstSerial K + 3) = K :=
      monthIdxOf_eq _ _ (by omega) (by omega)
    omega
  have hdown : K - 1 ≤ monthIdxOf (getThursdayOfWeek (getMondayOfWeek (firstSerial K))) := by
    have hmono := monthIdxOf_mono (firstSerial (K - 1))
      (getThursdayOfWeek (getMondayOfWeek (firstSerial K)))
      (by unfold getThursdayOfWeek; omega)
    rw [monthIdxOf_firstSerial] at hmono
    exact hmono
  omega

theorem adjustedFirstMonday_spec (K : Nat) (h : 1 ≤ K) :
    isFirstThuWeekMonday (adjustedFirstMonday K) K := by
  have hF := firstSerial_ge_31 K h
  have hle := getMondayOfWeek_le (firstSerial K)
  have hgt := getMondayOfWeek_gt (firstSerial K)
  have hlen := monthLen_ge K
  have hdow := getMondayOfWeek_dow (firstSerial K) (by omega)
  have hnear := monthIdxOf_thursday_near K h
  have hne : monthIdxOf (getThursdayOfWeek (getMondayOfWeek (firstSerial K))) % 12 ≠ K % 12 ↔
      monthIdxOf (getThursdayOfWeek (getMondayOfWeek (firstSerial K))) ≠ K := by
    rcases hnear with h1 | h1 <;> rw [h1] <;> omega
  simp only [adjustedFirstMonday]
  split_ifs with hcond
  · -- pushed a week: the first week's Thursday is in the previous month
    have hKne : monthIdxOf (getThursdayOfWeek (getMondayOfWeek (firstSerial K))) ≠ K :=
      hne.mp hcond
    refine ⟨by unfold dowMon at hdow ⊢; omega, ?_, ?_⟩
    · -- Thursday of the pushed week is in month K
      apply monthIdxOf_eq
      · unfold getThursdayOfWeek
        omega
      · unfold getThursdayOfWeek
        omega
    · intro B hB hBK
      by_contra hc
      push_neg at hc
      have hmod := monday_mod_eq B (getMondayOfWeek (firstSerial K)) hB hdow
      have hspec := monthIdxOf_spec (getThursdayOfWeek B)
      rw [hBK] at hspec
      rcases Nat.lt_or_ge B (getMondayOfWeek (firstSerial K)) with hlt | hge
      · -- B at least a week before the first-of-month week
        unfold getThursdayOfWeek at hspec
        omega
      · -- B equals the unpushed first Monday, whose Thursday is not in K
        have hBeq : B = getMondayOfWeek (firstSerial K) := by omega
        rw [hBeq] at hBK
        exact hKne hBK
  · have hKeq : monthIdxOf (getThursdayOfWeek (getMondayOfWeek (firstSerial K))) = K := by
      by_contra hc
      exact hcond (hne.mpr hc)
    refine ⟨hdow, hKeq, ?_⟩
    intro B hB hBK
    by_contra hc
    push_neg at hc
    have hmod := monday_mod_eq B (getMondayOfWeek (firstSerial K)) hB hdow
    have hspec := monthIdxOf_spec (getThursdayOfWeek B)
    rw [hBK] at hspec
    unfold getThursdayOfWeek at hspec
    omega

end WeekLemmas

section GridLemmas

theorem mem_getDateRange (s e d : Nat) :
    d ∈ getDateRange s e ↔ s ≤ d ∧ d ≤ e ∧ s ≤ e := by
  simp only [getDateRange, List.mem_map, List.mem_range]
  constructor
  · rintro ⟨i, hi, rfl⟩
    omega
  · intro h
    exact ⟨d - s, by omega, by omega⟩

theorem mem_groupIntoWeeks (dates : List Nat) (led : Ledger) (gid : String)
    (today : Nat) (wk : WeekData) :
    wk ∈ groupIntoWeeks dates led gid today ↔
      ∃ μ ∈ (dates.map getMondayOfWeek).dedup,
        wk = weekFor dates led gid today μ := by
  simp only [groupIntoWeeks, List.mem_map, List.mem_insertionSort]
  constructor
  · rintro ⟨μ, hμ, rfl⟩
    exact ⟨μ, hμ, rfl⟩
  · rintro ⟨μ, hμ, rfl⟩
    exact ⟨μ, hμ, rfl⟩

theorem mem_weekFor_days (dates : List Nat) (led : Ledger) (gid : String)
    (today μ : Nat) (dc : WeekDayData) :
    dc ∈ (weekFor dates led gid today μ).days ↔
      ∃ i < 7, dc = dayCellFor dates led gid today μ i := by
  simp only [weekFor, List.mem_map, List.mem_range]
  constructor
  · rintro ⟨i, hi, rfl⟩
    exact ⟨i, hi, rfl⟩
  · rintro ⟨i, hi, rfl⟩
    exact ⟨i, hi, rfl⟩

theorem dayCellFor_real (dates : List Nat) (led : Ledger) (gid : String)
    (today μ i : Nat)
    (h : getMondayOfWeek (μ + i) = μ ∧ dates.contains (μ + i)) :
    dayCellFor dates led gid today μ i =
      { date := μ + i
        isCompleted := ledgerCompleted led gid (μ + i)
        isFuture := today < μ + i
        isLastDay := dates.getLast? = some (μ + i)
        isToday := μ + i = today
        isPlaceholder := false } := by
  unfold dayCellFor
  rw [if_pos h]

theorem dayCellFor_placeholder (dates : List Nat) (led : Ledger)
    (gid : String) (today μ i : Nat)
    (h : ¬ (getMondayOfWeek (μ + i) = μ ∧ dates.contains (μ + i))) :
    dayCellFor dates led gid today μ i =
      { date := μ + i
        isCompleted := false
        isFuture := false
        isLastDay := false
        isToday := false
        isPlaceholder := true } := by
  unfold dayCellFor
  rw [if_neg h]

theorem dayCellFor_date (dates : List Nat) (led : Ledger) (gid : String)
    (today μ i : Nat) :
    (dayCellFor dates led gid today μ i).date = μ + i := by
  unfold dayCellFor
  split_ifs <;> rfl

theorem mem_getAllMonths (s e : Nat) (mi : Nat × Nat) :
    mi ∈ getAllMonths s e ↔
      ∃ K, monthIdxOf s ≤ K ∧ K ≤ monthIdxOf e ∧
        mi = (K % 12, K / 12) := by
  simp only [getAllMonths, List.mem_map, List.mem_range]
  constructor
  · rintro ⟨i, hi, rfl⟩
    exact ⟨monthIdxOf s + i, by omega, by omega, rfl⟩
  · rintro ⟨K, h1, h2, rfl⟩
    exact ⟨K - monthIdxOf s, by omega, by rw [Nat.add_sub_cancel' h1]⟩

theorem le_foldl_maxWeek (l : List WeekData) (a : Nat) :
    a ≤ l.foldl (fun m w => max m w.weekNumber) a ∧
      ∀ wk ∈ l, wk.weekNumber ≤ l.foldl (fun m w => max m w.weekNumber) a := by
  induction l generalizing a with
  | nil => simp
  | cons x xs ih =>
    obtain ⟨ih1, ih2⟩ := ih (max a x.weekNumber)
    refine ⟨by simpa using le_trans (le_max_left _ _) ih1, ?_⟩
    intro wk hwk
    rcases List.mem_cons.mp hwk with rfl | h
    · exact le_trans (le_max_right a wk.weekNumber) ih1
    · exact ih2 wk h

theorem mem_getWeekColumnNumbers (weeks : List WeekData) (c : Nat) :
    c ∈ getWeekColumnNumbers weeks ↔
      1 ≤ c ∧ c ≤ weeks.foldl (fun m w => max m w.weekNumber) 4 + 1 := by
  simp only [getWeekColumnNumbers, List.mem_map, List.mem_range]
  constructor
  · rintro ⟨i, hi, rfl⟩
    omega
  · rintro ⟨h1, h2⟩
    exact ⟨c - 1, by omega, by omega⟩

theorem mem_organizeIntoGrid (weeks : List WeekData) (cols : List Nat)
    (months : List (Nat × Nat)) (row : MonthRowData) :
    row ∈ organizeIntoGrid weeks cols months ↔
      ∃ mi ∈ months, row =
        { month := mi.1, year := mi.2
          weeks := cols.map fun colNum =>
            lookupWeekForMonth weeks mi.1 mi.2 (colNum - 1) } := by
  simp only [organizeIntoGrid, List.mem_map]
  constructor
  · rintro ⟨mi, hmi, rfl⟩
    exact ⟨mi, hmi, rfl⟩
  · rintro ⟨mi, hmi, rfl⟩
    exact ⟨mi, hmi, rfl⟩

theorem lookupWeekForMonth_eq_some (weeks : List WeekData) (m y w : Nat)
    (wk : WeekData) (h : lookupWeekForMonth weeks m y w = some wk) :
    ∃ wk0 ∈ weeks, weekHasDaysInMonth wk0.startDate (12 * y + m) = true ∧
      getWeekOfMonthForDisplay wk0.startDate (12 * y + m) = w ∧
      wk = adjustWeekForMonth wk0 (12 * y + m) := by
  unfold lookupWeekForMonth at h
  obtain ⟨wk0, hfind, hadj⟩ := Option.map_eq_some'.mp h
  have hm := List.mem_of_find?_eq_some hfind
  have hp := List.find?_some hfind
  simp only [Bool.and_eq_true, beq_iff_eq] at hp
  rw [List.mem_reverse] at hm
  exact ⟨wk0, hm, hp.1, hp.2, hadj.symm⟩

theorem lookupWeekForMonth_unique_mem (weeks : List WeekData) (m y w : Nat)
    (wk : WeekData) (hwk : wk ∈ weeks)
    (hhas : weekHasDaysInMonth wk.startDate (12 * y + m) = true)
    (hw : getWeekOfMonthForDisplay wk.startDate (12 * y + m) = w)
    (huniq : ∀ wk' ∈ weeks,
      weekHasDaysInMonth wk'.startDate (12 * y + m) = true →
      getWeekOfMonthForDisplay wk'.startDate (12 * y + m) = w → wk' = wk) :
    lookupWeekForMonth weeks m y w =
      some (adjustWeekForMonth wk (12 * y + m)) := by
  unfold lookupWeekForMonth
  have hsome : (weeks.reverse.find? fun x =>
      weekHasDaysInMonth x.startDate (12 * y + m) &&
        getWeekOfMonthForDisplay x.startDate (12 * y + m) == w).isSome := by
    rw [List.find?_isSome]
    exact ⟨wk, List.mem_reverse.mpr hwk, by simp [hhas, hw]⟩
  obtain ⟨wk', hwk'⟩ := Option.isSome_iff_exists.mp hsome
  have hfacts := List.find?_some hwk'
  have hmem := List.mem_of_find?_eq_some hwk'
  simp only [Bool.and_eq_true, beq_iff_eq] at hfacts
  rw [List.mem_reverse] at hmem
  rw [hwk', Option.map_some', huniq wk' hmem hfacts.1 hfacts.2]

end GridLemmas

section WeekMonthBridge

theorem getWeekOfMonth_fields (μ : Nat) :
    (getWeekOfMonth μ).month = monthIdxOf (getThursdayOfWeek μ) % 12 ∧
      (getWeekOfMonth μ).year = monthIdxOf (getThursdayOfWeek μ) / 12 ∧
      (getWeekOfMonth μ).weekOfMonth =
        (μ - adjustedFirstMonday (monthIdxOf (getThursdayOfWeek μ))) / 7 :=
  ⟨rfl, rfl, rfl⟩

theorem monday_week_decomp (μ : Nat) (hμ : dowMon μ = 0)
    (hK : 1 ≤ monthIdxOf (getThursdayOfWeek μ)) :
    adjustedFirstMonday (monthIdxOf (getThursdayOfWeek μ)) ≤ μ ∧
      μ = adjustedFirstMonday (monthIdxOf (getThursdayOfWeek μ)) +
        7 * (getWeekOfMonth μ).weekOfMonth := by
  have hspec := adjustedFirstMonday_spec _ hK
  have hle := hspec.2.2 μ hμ rfl
  have hmod := monday_mod_eq μ _ hμ hspec.1
  have hwk : (getWeekOfMonth μ).weekOfMonth =
      (μ - adjustedFirstMonday (monthIdxOf (getThursdayOfWeek μ))) / 7 := rfl
  rw [hwk]
  omega

theorem monday_key_inj (μ1 μ2 : Nat) (h1 : dowMon μ1 = 0) (h2 : dowMon μ2 = 0)
    (hKeq : monthIdxOf (getThursdayOfWeek μ1) =
      monthIdxOf (getThursdayOfWeek μ2))
    (hK : 1 ≤ monthIdxOf (getThursdayOfWeek μ1))
    (hw : (getWeekOfMonth μ1).weekOfMonth = (getWeekOfMonth μ2).weekOfMonth) :
    μ1 = μ2 := by
  have hd1 := monday_week_decomp μ1 h1 hK
  have hd2 := monday_week_decomp μ2 h2 (hKeq ▸ hK)
  rw [hKeq] at hd1
  omega

theorem monthIdxOf_31 : monthIdxOf 31 = 1 := by decide

theorem monthIdxOf_ge_one (z : Nat) (h : 31 ≤ z) : 1 ≤ monthIdxOf z := by
  have hm := monthIdxOf_mono 31 z h
  rw [monthIdxOf_31] at hm
  exact hm

end WeekMonthBridge

section StatsLemmas

theorem getDateRange_pairwise (s e : Nat) :
    List.Pairwise (· < ·) (getDateRange s e) := by
  unfold getDateRange
  exact (List.pairwise_lt_range _).map _ (fun a b h => by omega)

theorem getDateRange_length (s e : Nat) (h : s ≤ e) :
    (getDateRange s e).length = e - s + 1 := by
  unfold getDateRange
  rw [List.length_map, List.length_range]
  omega

theorem streakWalk_eq_consec (c : Nat → Bool) (today : Nat) (l : List Nat)
    (hl : today ∉ l) : streakWalk c today l = consecCompleted c l := by
  induction l with
  | nil => rfl
  | cons d rest ih =>
    have hd : d ≠ today := fun h => hl (h ▸ List.mem_cons_self d rest)
    have hrest : today ∉ rest := fun h => hl (List.mem_cons_of_mem d h)
    unfold streakWalk consecCompleted
    by_cases hc : c d
    · rw [if_pos hc, List.takeWhile_cons, hc]
      simp only [List.length_cons]
      rw [ih hrest]
      rfl
    · rw [if_neg hc, if_neg (by tauto), List.takeWhile_cons]
      simp [hc]

theorem filter_le_today (s e today : Nat) :
    (getDateRange s e).filter (fun d => decide (d < today ∨ d = today)) =
      (getDateRange s e).filter (fun d => decide (d ≤ today)) := by
  apply List.filter_congr
  intro d hd
  simp only [decide_eq_decide]
  omega

theorem rel_reverse_today_not_tail (s e today : Nat) (d : Nat) (rest : List Nat)
    (h : ((getDateRange s e).filter (fun x => decide (x ≤ today))).reverse =
      d :: rest) : today ∉ rest := by
  have hpw : List.Pairwise (· > ·)
      (((getDateRange s e).filter (fun x => decide (x ≤ today))).reverse) := by
    rw [List.pairwise_reverse]
    exact List.Pairwise.sublist (List.filter_sublist _) (getDateRange_pairwise s e)
  rw [h, List.pairwise_cons] at hpw
  intro hmem
  have hlt : today < d := hpw.1 today hmem
  have hdmem : d ∈ (getDateRange s e).filter (fun x => decide (x ≤ today)) := by
    have : d ∈ ((getDateRange s e).filter
        (fun x => decide (x ≤ today))).reverse := by
      rw [h]; exact List.mem_cons_self d rest
    rwa [List.mem_reverse] at this
  have := List.of_mem_filter hdmem
  simp only [decide_eq_true_eq] at this
  omega

theorem foldl_count (c : Nat → Bool) (l : List Nat) (a b : Nat) :
    l.foldl
      (fun (acc : Nat × Nat) d =>
        if c d then (acc.1 + 1, acc.2) else (acc.1, acc.2 + 1)) (a, b) =
      (a + (l.filter c).length, b + (l.filter (fun d => ! c d)).length) := by
  induction l generalizing a b with
  | nil => simp
  | cons x xs ih =>
    by_cases hc : c x <;>
      simp only [List.foldl_cons, List.filter_cons, hc, if_pos, if_neg,
        Bool.not_true, Bool.not_false, ih] <;>
      simp [hc] <;> omega

end StatsLemmas

section LongestScanLemmas

theorem longestScan_append_one (c : Nat → Bool) (l : List Nat) (x : Nat) :
    longestScan c (l ++ [x]) =
      if c x then
        ((longestScan c l).1 + 1, max (longestScan c l).2 ((longestScan c l).1 + 1))
      else (0, (longestScan c l).2) := by
  unfold longestScan
  rw [List.foldl_append]
  by_cases hc : c x <;> simp [hc]

theorem longestScan_fst (c : Nat → Bool) (l : List Nat) :
    (longestScan c l).1 = (l.reverse.takeWhile c).length := by
  induction l using List.reverseRecOn with
  | nil => rfl
  | append_singleton l x ih =>
    rw [longestScan_append_one]
    by_cases hc : c x
    · rw [if_pos hc]
      simp [List.takeWhile_cons, hc, ih]
    · rw [if_neg hc]
      simp [List.takeWhile_cons, hc]

theorem longestScan_snd_ge_fst (c : Nat → Bool) (l : List Nat) :
    (longestScan c l).1 ≤ (longestScan c l).2 := by
  induction l using List.reverseRecOn with
  | nil => exact le_rfl
  | append_singleton l x ih =>
    rw [longestScan_append_one]
    by_cases hc : c x <;> simp [hc]

theorem longestScan_snd_mono (c : Nat → Bool) (l : List Nat) (x : Nat) :
    (longestScan c l).2 ≤ (longestScan c (l ++ [x])).2 := by
  rw [longestScan_append_one]
  by_cases hc : c x <;> simp [hc]

theorem longestScan_le_length (c : Nat → Bool) (l : List Nat) :
    (longestScan c l).1 ≤ l.length ∧ (longestScan c l).2 ≤ l.length := by
  induction l using List.reverseRecOn with
  | nil => exact ⟨le_rfl, le_rfl⟩
  | append_singleton l x ih =>
    rw [longestScan_append_one]
    by_cases hc : c x <;> simp [hc] <;> omega

theorem takeWhile_all_eq (c : Nat → Bool) (l : List Nat)
    (h : ∀ d ∈ l, c d = true) : (l.takeWhile c).length = l.length := by
  induction l with
  | nil => rfl
  | cons x xs ih =>
    rw [List.takeWhile_cons, h x (List.mem_cons_self x xs)]
    simp only [if_true, List.length_cons]
    rw [ih fun d hd => h d (List.mem_cons_of_mem x hd)]

theorem longestScan_all (c : Nat → Bool) (l : List Nat)
    (h : ∀ d ∈ l, c d = true) : (longestScan c l).2 = l.length := by
  have h1 := longestScan_fst c l
  have h2 := longestScan_snd_ge_fst c l
  have h3 := (longestScan_le_length c l).2
  have h4 : (l.reverse.takeWhile c).length = l.reverse.length :=
    takeWhile_all_eq c l.reverse fun d hd => h d (List.mem_reverse.mp hd)
  rw [List.length_reverse] at h4
  omega

end LongestScanLemmas

theorem getDateRange_head (s e : Nat) (h : s ≤ e) :
    (getDateRange s e).head? = some s := by
  unfold getDateRange
  rw [List.head?_map, List.range_eq_range', List.head?_range']
  rw [if_neg (by omega)]
  simp

theorem getDateRange_getLast (s e : Nat) (h : s ≤ e) :
    (getDateRange s e).getLast? = some e := by
  unfold getDateRange
  rw [List.getLast?_map, List.getLast?_eq_getElem?, List.length_range,
    List.getElem?_range (show e + 1 - s - 1 < e + 1 - s by omega)]
  simp only [Option.map_some']
  have he : s + (e + 1 - s - 1) = e := by omega
  rw [he]

theorem enum_getDateRange (s e : Nat) (p : Nat × Nat)
    (hp : p ∈ (getDateRange s e).enum) : p.1 < e + 1 - s ∧ p.2 = s + p.1 := by
  have hg := List.mem_enum_iff_getElem?.mp hp
  unfold getDateRange at hg
  rw [List.getElem?_map] at hg
  by_cases hlt : p.1 < e + 1 - s
  · rw [List.getElem?_range hlt] at hg
    simp only [Option.map_some'] at hg
    exact ⟨hlt, (Option.some_inj.mp hg).symm⟩
  · have hnone : (List.range (e + 1 - s))[p.1]? = none := by
      rw [List.getElem?_eq_none]
      rw [List.length_range]
      omega
    rw [hnone] at hg
    simp at hg

theorem streakWalk_cons (c : Nat → Bool) (today d : Nat) (rest : List Nat) :
    streakWalk c today (d :: rest) =
      if c d then streakWalk c today rest + 1
      else if d = today ∧ rest ≠ [] then streakWalk c today rest
      else 0 := rfl

/-- C4: for every goal, ledger, and today, `calculateCurrentStreak` equals the
count obtained by walking the goal's dates that are ≤ today from the most
recent backward, counting consecutive completed entries, where an uncompleted
today is skipped once (counting continuing from the previous day) and any
other uncompleted day stops the count. -/
theorem currentStreak_eq_backward_walk (led : Ledger) (gid : String)
    (s e today : Nat) :
    calculateCurrentStreak led gid s e today =
      specCurrentStreak led gid s e today := by
  unfold calculateCurrentStreak specCurrentStreak
  dsimp only
  rw [filter_le_today]
  rcases hrev : ((getDateRange s e).filter fun d => decide (d ≤ today)).reverse
    with - | ⟨d, rest⟩
  · rfl
  · dsimp only
    have hnt : today ∉ rest := rel_reverse_today_not_tail s e today d rest hrev
    rw [streakWalk_cons]
    by_cases hc : ledgerCompleted led gid d = true
    · rw [if_pos hc, if_neg (by simp [hc]), streakWalk_eq_consec _ _ _ hnt,
        consecCompleted, consecCompleted, List.takeWhile_cons, hc]
      simp
    · rw [if_neg hc]
      by_cases hd : d = today
      · rcases rest with - | ⟨r, rs⟩
        · rw [if_neg (by simp), if_pos ⟨hd, by simp [hc]⟩]
          rfl
        · rw [if_pos ⟨hd, by simp⟩, streakWalk_eq_consec _ _ _ hnt,
            if_pos ⟨hd, by simp [hc]⟩]
      · rw [if_neg (by tauto), if_neg (by tauto), consecCompleted,
          List.takeWhile_cons]
        simp [hc]

/-- C5: for every goal, ledger, and today, the longest streak is at least the
current streak; and if every date of the goal's range that is ≤ today is
completed in the ledger, both equal the number of such dates. -/
theorem longestStreak_ge_currentStreak (led : Ledger) (gid : String)
    (s e today : Nat) :
    calculateCurrentStreak led gid s e today ≤
        calculateLongestStreak led gid s e today ∧
      ((∀ d ∈ getDateRange s e, d ≤ today → ledgerCompleted led gid d = true) →
        calculateCurrentStreak led gid s e today =
            ((getDateRange s e).filter fun d => decide (d ≤ today)).length ∧
          calculateLongestStreak led gid s e today =
            ((getDateRange s e).filter fun d => decide (d ≤ today)).length) := by
  unfold calculateCurrentStreak calculateLongestStreak
  dsimp only
  rw [filter_le_today]
  constructor
  · rcases hrev : ((getDateRange s e).filter fun d => decide (d ≤ today)).reverse
      with - | ⟨d, rest⟩
    · simp [streakWalk]
    · have hnt : today ∉ rest := rel_reverse_today_not_tail s e today d rest hrev
      have hsplit : (getDateRange s e).filter (fun d => decide (d ≤ today)) =
          rest.reverse ++ [d] := by
        have h2 := congrArg List.reverse hrev
        rw [List.reverse_reverse] at h2
        rw [h2, List.reverse_cons]
      rw [streakWalk_cons]
      by_cases hc : ledgerCompleted led gid d = true
      · rw [if_pos hc, streakWalk_eq_consec _ _ _ hnt]
        have heq : consecCompleted (ledgerCompleted led gid) rest + 1 =
            (longestScan (ledgerCompleted led gid)
              ((getDateRange s e).filter fun d => decide (d ≤ today))).1 := by
          rw [longestScan_fst, hrev, List.takeWhile_cons, hc]
          simp [consecCompleted]
        rw [heq]
        exact longestScan_snd_ge_fst _ _
      · rw [if_neg hc]
        by_cases hcond : d = today ∧ rest ≠ []
        · rw [if_pos hcond, streakWalk_eq_consec _ _ _ hnt]
          have heq : consecCompleted (ledgerCompleted led gid) rest =
              (longestScan (ledgerCompleted led gid) rest.reverse).1 := by
            rw [longestScan_fst, List.reverse_reverse]
            rfl
          rw [heq]
          calc (longestScan (ledgerCompleted led gid) rest.reverse).1
              ≤ (longestScan (ledgerCompleted led gid) rest.reverse).2 :=
                longestScan_snd_ge_fst _ _
            _ ≤ (longestScan (ledgerCompleted led gid)
                  (rest.reverse ++ [d])).2 := longestScan_snd_mono _ _ _
            _ = (longestScan (ledgerCompleted led gid)
                  ((getDateRange s e).filter fun d => decide (d ≤ today))).2 := by
                rw [hsplit]
        · rw [if_neg hcond]
          exact Nat.zero_le _
  · intro hall
    have hall' : ∀ d ∈ (getDateRange s e).filter fun d => decide (d ≤ today),
        ledgerCompleted led gid d = true := by
      intro d hd
      have hm := List.mem_of_mem_filter hd
      have hp := List.of_mem_filter hd
      simp only [decide_eq_true_eq] at hp
      exact hall d hm hp
    constructor
    · rcases hrev : ((getDateRange s e).filter
          fun d => decide (d ≤ today)).reverse with - | ⟨d, rest⟩
      · have hnil : (getDateRange s e).filter (fun d => decide (d ≤ today)) = [] := by
          have h2 := congrArg List.reverse hrev
          rw [List.reverse_reverse] at h2
          simpa using h2
        rw [hnil]
        rfl
      · have hnt : today ∉ rest := rel_reverse_today_not_tail s e today d rest hrev
        have hd : d ∈ (getDateRange s e).filter fun d => decide (d ≤ today) := by
          rw [← List.mem_reverse, hrev]
          exact List.mem_cons_self d rest
        have hc := hall' d hd
        rw [streakWalk_cons, if_pos hc, streakWalk_eq_consec _ _ _ hnt]
        have hlen : consecCompleted (ledgerCompleted led gid) rest + 1 =
            (d :: rest).length := by
          unfold consecCompleted
          rw [takeWhile_all_eq]
          · rfl
          · intro x hx
            apply hall'
            rw [← List.mem_reverse, hrev]
            exact List.mem_cons_of_mem d hx
        rw [hlen, ← hrev, List.length_reverse]
    · exact longestScan_all _ _ hall'

/-- C5 witness: the two C5 properties instantiated at a concrete three-day
fully completed goal. -/
theorem longestStreak_ge_currentStreak_witness :
    calculateCurrentStreak
        (fun _ _ => some ⟨true⟩) "g" 739311 739313 739313 ≤
      calculateLongestStreak
        (fun _ _ => some ⟨true⟩) "g" 739311 739313 739313 ∧
    calculateCurrentStreak (fun _ _ => some ⟨true⟩) "g" 739311 739313 739313 =
      ((getDateRange 739311 739313).filter fun d => decide (d ≤ 739313)).length := by
  have h := longestStreak_ge_currentStreak
    (fun _ _ => some ⟨true⟩) "g" 739311 739313 739313
  exact ⟨h.1, (h.2 (by decide)).1⟩

theorem filter_bool_split_length (c : Nat → Bool) (l : List Nat) :
    (l.filter c).length + (l.filter fun d => ! c d).length = l.length := by
  induction l with
  | nil => rfl
  | cons x xs ih =>
    by_cases hc : c x <;> simp [List.filter_cons, hc] <;> omega

theorem completionStats_closed (led : Ledger) (gid : String) (s e today : Nat) :
    calculateCompletionStats led gid s e today =
      { totalCompleted :=
          (((getDateRange s e).filter fun d => decide (d < today)).filter
            (ledgerCompleted led gid)).length +
          (if today ∈ getDateRange s e ∧ ledgerCompleted led gid today = true
            then 1 else 0)
        totalMissed :=
          (((getDateRange s e).filter fun d => decide (d < today)).filter
            fun d => ! ledgerCompleted led gid d).length
        completionRate :=
          if 0 < ((getDateRange s e).filter fun d => decide (d < today)).length
          then
            jsRoundPct
              ((((getDateRange s e).filter fun d => decide (d < today)).filter
                (ledgerCompleted led gid)).length +
                (if today ∈ getDateRange s e ∧
                    ledgerCompleted led gid today = true then 1 else 0))
              (((getDateRange s e).filter fun d => decide (d < today)).length +
                if today ∈ getDateRange s e then 1 else 0)
          else 0
        pastDays :=
          ((getDateRange s e).filter fun d => decide (d < today)).length } := by
  unfold calculateCompletionStats
  dsimp only
  rw [foldl_count]
  simp only [List.elem_iff, Nat.zero_add]
  by_cases hmem : today ∈ getDateRange s e <;>
    by_cases hc : ledgerCompleted led gid today = true <;>
    simp [hmem, hc]

theorem jsRoundPct_le_100 (n d : Nat) (h : n ≤ d) (hd : 0 < d) :
    jsRoundPct n d ≤ 100 := by
  unfold jsRoundPct
  have h101 : (200 * n + d) / (2 * d) < 101 := by
    rw [Nat.div_lt_iff_lt_mul (by omega)]
    omega
  omega

/-- C2 counterexample: for a one-day goal starting today with today completed,
the code returns `completionRate = 0` although `totalCompleted = 1` and the
claim's denominator `pastDays + 1 = 1` is nonzero, so the claimed formula
(which would give 100) and the claimed "0 exactly when the denominator is 0"
both fail. -/
theorem completionRate_claim_counterexample :
    ¬ ((calculateCompletionStats
          (fun g d => if g = "g" ∧ d = 739311 then some ⟨true⟩ else none)
          "g" 739311 739311 739311).completionRate =
        jsRoundPct
          (calculateCompletionStats
            (fun g d => if g = "g" ∧ d = 739311 then some ⟨true⟩ else none)
            "g" 739311 739311 739311).totalCompleted
          ((calculateCompletionStats
            (fun g d => if g = "g" ∧ d = 739311 then some ⟨true⟩ else none)
            "g" 739311 739311 739311).pastDays +
            if (739311 : Nat) ∈ getDateRange 739311 739311 then 1 else 0) ∧
      ((calculateCompletionStats
          (fun g d => if g = "g" ∧ d = 739311 then some ⟨true⟩ else none)
          "g" 739311 739311 739311).completionRate = 0 ↔
        (calculateCompletionStats
          (fun g d => if g = "g" ∧ d = 739311 then some ⟨true⟩ else none)
          "g" 739311 739311 739311).pastDays +
          (if (739311 : Nat) ∈ getDateRange 739311 739311 then 1 else 0) = 0)) := by
  decide

/-- C2 (amended): the completion rate equals `totalCompleted` over
`pastDays + (1 if today is in range else 0)`, rounded to an integer percent,
whenever there is at least one past day, and is 0 whenever `pastDays = 0`
(even if the denominator itself is nonzero because today is in range). -/
theorem completionRate_formula (led : Ledger) (gid : String)
    (s e today : Nat) :
    (0 < (calculateCompletionStats led gid s e today).pastDays →
      (calculateCompletionStats led gid s e today).completionRate =
        jsRoundPct (calculateCompletionStats led gid s e today).totalCompleted
          ((calculateCompletionStats led gid s e today).pastDays +
            if today ∈ getDateRange s e then 1 else 0)) ∧
    ((calculateCompletionStats led gid s e today).pastDays = 0 →
      (calculateCompletionStats led gid s e today).completionRate = 0) := by
  rw [completionStats_closed]
  dsimp only
  constructor
  · intro hpos
    rw [if_pos hpos]
  · intro hzero
    rw [if_neg (by omega)]

/-- C2 witness: the amended formula evaluated for a three-day goal with two
past days and an empty ledger. -/
theorem completionRate_formula_witness :
    (calculateCompletionStats (fun _ _ => none) "g" 739311 739313
        739313).completionRate =
      jsRoundPct
        (calculateCompletionStats (fun _ _ => none) "g" 739311 739313
          739313).totalCompleted
        ((calculateCompletionStats (fun _ _ => none) "g" 739311 739313
          739313).pastDays +
          if (739313 : Nat) ∈ getDateRange 739311 739313 then 1 else 0) :=
  (completionRate_formula (fun _ _ => none) "g" 739311 739313 739313).1
    (by decide)

/-- C3 counterexample: for a one-day goal consisting of just today with
nothing completed, `totalCompleted + totalMissed = 0` while exactly one date
of the range is ≤ today, so the claimed conservation fails. -/
theorem totals_conservation_counterexample :
    ¬ ((calculateCompletionStats (fun _ _ => none) "g" 739311 739311
          739311).totalCompleted +
        (calculateCompletionStats (fun _ _ => none) "g" 739311 739311
          739311).totalMissed =
        ((getDateRange 739311 739311).filter
          fun d => decide (d ≤ 739311)).length) := by
  decide

/-- C3 (amended): `totalCompleted + totalMissed` equals the number of range
dates strictly before today, plus 1 exactly when today is in range and
completed (an uncompleted today is counted in neither total); and the
completion rate always lies within [0, 100]. -/
theorem totals_conservation (led : Ledger) (gid : String) (s e today : Nat) :
    (calculateCompletionStats led gid s e today).totalCompleted +
        (calculateCompletionStats led gid s e today).totalMissed =
      ((getDateRange s e).filter fun d => decide (d < today)).length +
        (if today ∈ getDateRange s e ∧ ledgerCompleted led gid today = true
          then 1 else 0) ∧
      (calculateCompletionStats led gid s e today).completionRate ≤ 100 := by
  rw [completionStats_closed]
  dsimp only
  constructor
  · have hsplit := filter_bool_split_length (ledgerCompleted led gid)
      ((getDateRange s e).filter fun d => decide (d < today))
    omega
  · have hle := List.length_filter_le (ledgerCompleted led gid)
      ((getDateRange s e).filter fun d => decide (d < today))
    by_cases hmem : today ∈ getDateRange s e
    · by_cases hc : ledgerCompleted led gid today = true
      · rw [if_pos (⟨hmem, hc⟩ :
          today ∈ getDateRange s e ∧ ledgerCompleted led gid today = true),
          if_pos hmem]
        split_ifs with hpos
        · exact jsRoundPct_le_100 _ _ (by omega) (by omega)
        · omega
      · rw [if_neg (by tauto :
          ¬ (today ∈ getDateRange s e ∧ ledgerCompleted led gid today = true)),
          if_pos hmem]
        split_ifs with hpos
        · exact jsRoundPct_le_100 _ _ (by omega) (by omega)
        · omega
    · rw [if_neg (by tauto :
        ¬ (today ∈ getDateRange s e ∧ ledgerCompleted led gid today = true)),
        if_neg hmem]
      split_ifs with hpos
      · exact jsRoundPct_le_100 _ _ (by omega) (by omega)
      · omega

/-- C7: for `startDate ≤ endDate` (dates from the second week of year 0 on,
where the serial encoding's week structure is exact), `getDateRange` returns
a strictly increasing sequence of length `(endDate − startDate) + 1` whose
first element is `startDate` and last is `endDate`; and in the week grouping,
a day cell carries the last-day flag exactly when its date is `endDate` —
placeholder cells never do. -/
theorem dateRange_shape (led : Ledger) (gid : String) (today s e : Nat)
    (h : s ≤ e) (hs7 : 7 ≤ s) :
    (getDateRange s e).length = e - s + 1 ∧
      List.Pairwise (· < ·) (getDateRange s e) ∧
      (getDateRange s e).head? = some s ∧
      (getDateRange s e).getLast? = some e ∧
      ∀ wk ∈ groupIntoWeeks (getDateRange s e) led gid today,
        ∀ dc ∈ wk.days, (dc.isLastDay = true ↔ dc.date = e) := by
  refine ⟨getDateRange_length s e h, getDateRange_pairwise s e,
    getDateRange_head s e h, getDateRange_getLast s e h, ?_⟩
  intro wk hwk dc hdc
  rw [mem_groupIntoWeeks] at hwk
  obtain ⟨μ, hμmem, rfl⟩ := hwk
  rw [List.mem_dedup, List.mem_map] at hμmem
  obtain ⟨d0, hd0, rfl⟩ := hμmem
  have hd0b := (mem_getDateRange s e d0).mp hd0
  have hμdow : dowMon (getMondayOfWeek d0) = 0 :=
    getMondayOfWeek_dow d0 (by omega)
  rw [mem_weekFor_days] at hdc
  obtain ⟨i, hi, rfl⟩ := hdc
  have hlast := getDateRange_getLast s e h
  by_cases hcond : getMondayOfWeek (getMondayOfWeek d0 + i) =
      getMondayOfWeek d0 ∧ (getDateRange s e).contains (getMondayOfWeek d0 + i)
  · rw [dayCellFor_real _ _ _ _ _ _ hcond]
    simp only [decide_eq_true_eq, hlast, Option.some_inj]
    exact eq_comm
  · rw [dayCellFor_placeholder _ _ _ _ _ _ hcond]
    simp only [Bool.false_eq_true, false_iff]
    intro heq
    apply hcond
    constructor
    · unfold getMondayOfWeek dowMon at hμdow ⊢
      omega
    · rw [List.elem_iff, heq]
      exact (mem_getDateRange s e e).mpr ⟨h, le_rfl, h⟩

/-- C7 witness: the range shape and last-day flag property for a concrete
three-day goal. -/
theorem dateRange_shape_witness :
    (getDateRange 739311 739313).length = 739313 - 739311 + 1 ∧
      (getDateRange 739311 739313).head? = some 739311 ∧
      (getDateRange 739311 739313).getLast? = some 739313 := by
  have hs := dateRange_shape (fun _ _ => none) "g" 739313 739311 739313
    (by decide) (by decide)
  exact ⟨hs.1, hs.2.2.1, hs.2.2.2.1⟩

/-- C10: `isGoalFullyCompleted` is true exactly when every date of the full
inclusive range has a completed ledger entry; no `today` is consulted, so the
result is independent of it. -/
theorem isGoalFullyCompleted_iff (led : Ledger) (gid : String) (s e : Nat)
    (h : s ≤ e) :
    isGoalFullyCompleted led gid s e = true ↔
      ∀ d, s ≤ d → d ≤ e →
        ∃ entry, led gid d = some entry ∧ entry.isCompleted = true := by
  unfold isGoalFullyCompleted
  rw [List.all_eq_true]
  constructor
  · intro hall d h1 h2
    have hd : d ∈ getDateRange s e := (mem_getDateRange s e d).mpr ⟨h1, h2, h⟩
    have hc := hall d hd
    unfold ledgerCompleted at hc
    cases hled : led gid d with
    | none => rw [hled] at hc; simp at hc
    | some entry =>
      rw [hled] at hc
      simp only [Option.map_some', Option.getD_some] at hc
      exact ⟨entry, rfl, hc⟩
  · intro hex d hd
    obtain ⟨h1, h2, -⟩ := (mem_getDateRange s e d).mp hd
    obtain ⟨entry, he, hc⟩ := hex d h1 h2
    unfold ledgerCompleted
    rw [he]
    simpa using hc

/-- C10 witness: a fully completed two-day goal evaluates to `true` and the
range-wide completion property holds at it. -/
theorem isGoalFullyCompleted_iff_witness :
    isGoalFullyCompleted (fun _ _ => some ⟨true⟩) "g" 739311 739312 = true := by
  rw [isGoalFullyCompleted_iff (fun _ _ => some ⟨true⟩) "g" 739311 739312
    (by decide)]
  intro d h1 h2
  exact ⟨⟨true⟩, rfl, rfl⟩

/-- C9: in every day-store state reachable from the empty store, every stored
entry has `completedAt ≠ null` exactly when `isCompleted = true`; and
`toggleCompletion` flips the entry's completion state (an absent entry
counting as not completed), stores the flipped value, and returns it. -/
theorem dayStore_invariant_and_toggle :
    (∀ days, ReachableDayMap days → ∀ k entry, days k = some entry →
      (entry.completedAt ≠ none ↔ entry.isCompleted = true)) ∧
    (∀ days gid date now,
      (toggleCompletion days gid date now).1 =
        ! (((days (createKey gid date)).map (·.isCompleted)).getD false) ∧
      ((toggleCompletion days gid date now).2 (createKey gid date)).map
          (·.isCompleted) =
        some (toggleCompletion days gid date now).1) := by
  constructor
  · intro days hreach
    induction hreach with
    | empty =>
      intro k entry h
      simp at h
    | toggle days gid date now hprev ih =>
      intro k entry h
      unfold toggleCompletion at h
      dsimp only at h
      by_cases hk : k = createKey gid date
      · rw [if_pos hk, Option.some_inj] at h
        subst h
        dsimp only
        by_cases hwas : ((days (createKey gid date)).map (·.isCompleted)).getD
            false = true
        · simp [hwas]
        · simp [hwas]
      · rw [if_neg hk] at h
        exact ih k entry h
    | note days gid date note hprev ih =>
      intro k entry h
      unfold updateNote at h
      dsimp only at h
      by_cases hk : k = createKey gid date
      · rw [if_pos hk, Option.some_inj] at h
        subst h
        cases hold : days (createKey gid date) with
        | none => simp [createEmptyEntry]
        | some old => simpa using ih (createKey gid date) old hold
      · rw [if_neg hk] at h
        exact ih k entry h
    | clear days gid hprev ih =>
      intro k entry h
      unfold clearGoalDays at h
      by_cases hk : k.startsWith (gid ++ "_")
      · rw [if_pos hk] at h
        simp at h
      · rw [if_neg hk] at h
        exact ih k entry h
  · intro days gid date now
    refine ⟨rfl, ?_⟩
    unfold toggleCompletion
    dsimp only
    rw [if_pos rfl]
    simp

/-- C9 witness: the invariant holds at the empty store, and toggling a fresh
key on the empty store returns `true` and stores a completed entry. -/
theorem dayStore_invariant_and_toggle_witness :
    (∀ k entry, (fun _ => none : DayMap) k = some entry →
      (entry.completedAt ≠ none ↔ entry.isCompleted = true)) ∧
    (toggleCompletion (fun _ => none) "g" "2024-03-01" "t").1 = true := by
  constructor
  · exact dayStore_invariant_and_toggle.1 (fun _ => none) ReachableDayMap.empty
  · have h := (dayStore_invariant_and_toggle.2 (fun _ => none) "g"
      "2024-03-01" "t").1
    rw [h]
    rfl

/-- C6: for every Monday-start week (from February of year 0 on, so that the
Thursday's month has a predecessor in the `Nat` month encoding),
`getWeekOfMonth` assigns the week to the month and year containing the week's
Thursday, and the returned index is the number of whole weeks from the Monday
of the first week whose Thursday falls in that month to the given Monday. -/
theorem getWeekOfMonth_spec (μ : Nat) (h1 : dowMon μ = 0) (h2 : 31 ≤ μ) :
    12 * (getWeekOfMonth μ).year + (getWeekOfMonth μ).month =
        monthIdxOf (getThursdayOfWeek μ) ∧
      ∃ A, isFirstThuWeekMonday A (monthIdxOf (getThursdayOfWeek μ)) ∧
        A ≤ μ ∧ 7 * (getWeekOfMonth μ).weekOfMonth = μ - A := by
  have hK : 1 ≤ monthIdxOf (getThursdayOfWeek μ) :=
    monthIdxOf_ge_one _ (by unfold getThursdayOfWeek; omega)
  constructor
  · have hy : (getWeekOfMonth μ).year =
        monthIdxOf (getThursdayOfWeek μ) / 12 := rfl
    have hm : (getWeekOfMonth μ).month =
        monthIdxOf (getThursdayOfWeek μ) % 12 := rfl
    omega
  · refine ⟨adjustedFirstMonday (monthIdxOf (getThursdayOfWeek μ)),
      adjustedFirstMonday_spec _ hK, (monday_week_decomp μ h1 hK).1, ?_⟩
    have hd := monday_week_decomp μ h1 hK
    omega

/-- C6 witness: the week of Monday 2024-01-29 (serial 739279). -/
theorem getWeekOfMonth_spec_witness :
    12 * (getWeekOfMonth 739279).year + (getWeekOfMonth 739279).month =
        monthIdxOf (getThursdayOfWeek 739279) ∧
      ∃ A, isFirstThuWeekMonday A (monthIdxOf (getThursdayOfWeek 739279)) ∧
        A ≤ 739279 ∧ 7 * (getWeekOfMonth 739279).weekOfMonth = 739279 - A :=
  getWeekOfMonth_spec 739279 (by decide) (by decide)

/-- C8 counterexample: `getDateRange` raises nothing on invalid input — an
unparseable endpoint (Invalid Date from `parseISO`) silently yields the empty
list, and a reversed range yields a descending list rather than an error. -/
theorem getDateRange_no_error_counterexample :
    getDateRangeJS none (some 739311) = [] ∧
      getDateRangeJS (some 739312) (some 739311) = [739312, 739311] := by
  constructor
  · rfl
  · decide

/-- C8 (amended): range expansion never raises: with the bundled date-fns
v3/v4, an endpoint that does not parse (Invalid Date) makes
`eachDayOfInterval` silently return the empty list, and `startDate > endDate`
returns the dates in descending order; no `InvalidDateError` exists in the
code. -/
theorem getDateRangeJS_total (oe os : Option Nat) (s e : Nat) (h : e < s) :
    getDateRangeJS none oe = [] ∧ getDateRangeJS os none = [] ∧
      getDateRangeJS (some s) (some e) = (getDateRange e s).reverse := by
  refine ⟨rfl, ?_, ?_⟩
  · cases os with
    | none => rfl
    | some v => rfl
  · show (if s ≤ e then getDateRange s e else (getDateRange e s).reverse) =
      (getDateRange e s).reverse
    rw [if_neg (by omega)]

/-- C8 witness: the no-error behavior at concrete endpoints. -/
theorem getDateRangeJS_total_witness :
    getDateRangeJS none none = [] ∧ getDateRangeJS none none = [] ∧
      getDateRangeJS (some 739312) (some 739311) =
        (getDateRange 739311 739312).reverse :=
  getDateRangeJS_total none none 739312 739311 (by decide)


theorem getWeekColumnNumbers_length (weeks : List WeekData) :
    (getWeekColumnNumbers weeks).length =
      weeks.foldl (fun m w => max m w.weekNumber) 4 + 1 := by
  simp [getWeekColumnNumbers]

theorem weekHasDaysInMonth_iff (μ K : Nat) :
    weekHasDaysInMonth μ K = true ↔ ∃ i < 7, monthIdxOf (μ + i) = K := by
  simp only [weekHasDaysInMonth, List.any_eq_true, List.mem_range,
    beq_iff_eq]

theorem hasDays_monday_bounds (μ K : Nat) (hμ : dowMon μ = 0) (hK : 1 ≤ K)
    (hhas : weekHasDaysInMonth μ K = true) :
    getMondayOfWeek (firstSerial K) ≤ μ ∧
      (μ - getMondayOfWeek (firstSerial K)) % 7 = 0 := by
  obtain ⟨i, hi, he⟩ := (weekHasDaysInMonth_iff μ K).mp hhas
  have hF := firstSerial_ge_31 K hK
  have hFle : firstSerial K ≤ μ + i := by
    have hspec := monthIdxOf_spec (μ + i)
    rw [he] at hspec
    exact hspec.1
  have hmfle := getMondayOfWeek_le (firstSerial K)
  have hmfgt := getMondayOfWeek_gt (firstSerial K)
  have hmfdow := getMondayOfWeek_dow (firstSerial K) (by omega)
  unfold dowMon at hμ hmfdow
  omega

theorem display_index_decomp (μ K : Nat) (hμ : dowMon μ = 0) (hK : 1 ≤ K)
    (hhas : weekHasDaysInMonth μ K = true) :
    μ = getMondayOfWeek (firstSerial K) + 7 * getWeekOfMonthForDisplay μ K := by
  have hb := hasDays_monday_bounds μ K hμ hK hhas
  unfold getWeekOfMonthForDisplay
  omega

theorem monday_of_week_member (s e d0 : Nat) (hs : 7 ≤ s)
    (hd0 : d0 ∈ getDateRange s e) : dowMon (getMondayOfWeek d0) = 0 := by
  have hb := (mem_getDateRange s e d0).mp hd0
  exact getMondayOfWeek_dow d0 (by omega)

theorem week_day_in_month (d : Nat) :
    weekHasDaysInMonth (getMondayOfWeek d) (monthIdxOf d) = true := by
  rw [weekHasDaysInMonth_iff]
  have hle := getMondayOfWeek_le d
  have hgt := getMondayOfWeek_gt d
  refine ⟨d - getMondayOfWeek d, by omega, ?_⟩
  have he : getMondayOfWeek d + (d - getMondayOfWeek d) = d := by omega
  rw [he]

/-- C1 counterexample: for the goal 2025-03-01..2025-03-31 (serials
739676..739706, a 31-day month starting on a Saturday) with an empty ledger
and today = 2025-03-15 (serial 739690), the end date 739706 lies in the
expanded range and its week has a real day in the in-span month March 2025,
yet it appears in no grid cell: its month-relative display week index is 5,
while the Thursday-derived `weekNumber`s only produce the five columns
1..5, i.e. display indices 0..4, so the sixth display week of the month is
silently dropped. -/
theorem grid_drops_sixth_display_week :
    739706 ∈ getDateRange 739676 739706 ∧
      weekHasDaysInMonth (getMondayOfWeek 739706) (monthIdxOf 739706) =
        true ∧
      getWeekOfMonthForDisplay (getMondayOfWeek 739706) (monthIdxOf 739706) =
        5 ∧
      getWeekColumnNumbers (groupIntoWeeks (getDateRange 739676 739706)
        (fun _ _ => none) "g" 739690) = [1, 2, 3, 4, 5] ∧
      ¬ appearsInGrid
        (buildGrid (fun _ _ => none) "g" 739676 739706 739690) 739706 := by
  decide

/-- C1 (amended): for every ledger, goal id, expanded range `s..e` (with
`s` from year 1 on) and today, a date `d` of the range appears as a real
(non-placeholder) day in some grid cell exactly when the month-relative
display index of its week — whole weeks from the Monday of the week of the
first of `d`'s month — is below the number of week columns, which is
derived from the Thursday-based `weekNumber`s of the goal's weeks. Each
week is emitted into every month it has a real day in, with other-month
days masked to placeholders, but only at its display index within the
column range; a sixth display week finds no column and is dropped. -/
theorem appears_real_iff_display_index_fits
    (led : Ledger) (gid : String) (s e today d : Nat)
    (hs : 366 ≤ s) (hd : d ∈ getDateRange s e) :
    appearsRealInGrid (buildGrid led gid s e today) d ↔
      getWeekOfMonthForDisplay (getMondayOfWeek d) (monthIdxOf d) <
        (getWeekColumnNumbers
          (groupIntoWeeks (getDateRange s e) led gid today)).length := by
  obtain ⟨hsd, hde, -⟩ := (mem_getDateRange s e d).mp hd
  have hgrid : buildGrid led gid s e today =
      organizeIntoGrid (groupIntoWeeks (getDateRange s e) led gid today)
        (getWeekColumnNumbers (groupIntoWeeks (getDateRange s e) led gid today))
        (getAllMonths s e) := rfl
  have hμdow : dowMon (getMondayOfWeek d) = 0 := getMondayOfWeek_dow d (by omega)
  have hμle := getMondayOfWeek_le d
  have hμgt := getMondayOfWeek_gt d
  have hK1 : 1 ≤ monthIdxOf d := monthIdxOf_ge_one d (by omega)
  rw [getWeekColumnNumbers_length]
  constructor
  · rintro ⟨row, hrow, cell, hcell, wk, rfl, dc, hdc, hdcd, hdcr⟩
    rw [hgrid, mem_organizeIntoGrid] at hrow
    obtain ⟨mi, hmi, rfl⟩ := hrow
    simp only [List.mem_map] at hcell
    obtain ⟨col, hcol, hlook⟩ := hcell
    obtain ⟨wk0, hwk0mem, hhas, hdisp, rfl⟩ :=
      lookupWeekForMonth_eq_some _ mi.1 mi.2 (col - 1) wk hlook
    unfold adjustWeekForMonth at hdc
    dsimp only at hdc
    rw [List.mem_map] at hdc
    obtain ⟨day, hday, hdceq⟩ := hdc
    by_cases hdm : monthIdxOf day.date ≠ 12 * mi.2 + mi.1
    · rw [if_pos hdm] at hdceq
      rw [← hdceq] at hdcr
      simp at hdcr
    · rw [if_neg hdm] at hdceq
      push_neg at hdm
      subst hdceq
      rw [mem_groupIntoWeeks] at hwk0mem
      obtain ⟨μ0, hμ0mem, rfl⟩ := hwk0mem
      rw [List.mem_dedup, List.mem_map] at hμ0mem
      obtain ⟨d0, hd0, rfl⟩ := hμ0mem
      have hd0b := (mem_getDateRange s e d0).mp hd0
      rw [mem_weekFor_days] at hday
      obtain ⟨i, hi, rfl⟩ := hday
      by_cases hcond : getMondayOfWeek (getMondayOfWeek d0 + i) =
          getMondayOfWeek d0 ∧
          (getDateRange s e).contains (getMondayOfWeek d0 + i)
      · rw [dayCellFor_real _ _ _ _ _ _ hcond] at hdcd hdm
        dsimp only at hdcd hdm
        have hμeq : getMondayOfWeek d = getMondayOfWeek d0 := by
          rw [← hdcd, hcond.1]
        have hKeq : monthIdxOf d = 12 * mi.2 + mi.1 := by
          rw [← hdcd]
          exact hdm
        have hstart : (weekFor (getDateRange s e) led gid today
            (getMondayOfWeek d0)).startDate = getMondayOfWeek d0 := rfl
        rw [hstart] at hdisp
        rw [hμeq, hKeq]
        rw [mem_getWeekColumnNumbers] at hcol
        omega
      · rw [dayCellFor_placeholder _ _ _ _ _ _ hcond] at hdcr
        simp at hdcr
  · intro hidx
    have hKs : monthIdxOf s ≤ monthIdxOf d := monthIdxOf_mono s d hsd
    have hKe : monthIdxOf d ≤ monthIdxOf e := monthIdxOf_mono d e hde
    have hμmem : getMondayOfWeek d ∈
        ((getDateRange s e).map getMondayOfWeek).dedup :=
      List.mem_dedup.mpr (List.mem_map_of_mem _ hd)
    have hwk : weekFor (getDateRange s e) led gid today (getMondayOfWeek d) ∈
        groupIntoWeeks (getDateRange s e) led gid today :=
      (mem_groupIntoWeeks _ _ _ _ _).mpr ⟨_, hμmem, rfl⟩
    have hhasd := week_day_in_month d
    have hKsplit : 12 * (monthIdxOf d / 12) + monthIdxOf d % 12 =
        monthIdxOf d := by omega
    have hmimem : (monthIdxOf d % 12, monthIdxOf d / 12) ∈ getAllMonths s e :=
      (mem_getAllMonths _ _ _).mpr ⟨monthIdxOf d, hKs, hKe, rfl⟩
    have hcolmem : getWeekOfMonthForDisplay (getMondayOfWeek d)
        (monthIdxOf d) + 1 ∈
        getWeekColumnNumbers (groupIntoWeeks (getDateRange s e) led gid today) := by
      rw [mem_getWeekColumnNumbers]
      omega
    have hbounds := hasDays_monday_bounds (getMondayOfWeek d) (monthIdxOf d)
      hμdow hK1 hhasd
    have huniq : ∀ wk' ∈ groupIntoWeeks (getDateRange s e) led gid today,
        weekHasDaysInMonth wk'.startDate
          (12 * (monthIdxOf d / 12) + monthIdxOf d % 12) = true →
        getWeekOfMonthForDisplay wk'.startDate
          (12 * (monthIdxOf d / 12) + monthIdxOf d % 12) =
          getWeekOfMonthForDisplay (getMondayOfWeek d) (monthIdxOf d) →
        wk' = weekFor (getDateRange s e) led gid today (getMondayOfWeek d) := by
      intro wk' hwk' hhas' hdisp'
      rw [hKsplit] at hhas' hdisp'
      rw [mem_groupIntoWeeks] at hwk'
      obtain ⟨μ'', hμ''mem, rfl⟩ := hwk'
      rw [List.mem_dedup, List.mem_map] at hμ''mem
      obtain ⟨d'', hd'', rfl⟩ := hμ''mem
      have hstart'' : (weekFor (getDateRange s e) led gid today
          (getMondayOfWeek d'')).startDate = getMondayOfWeek d'' := rfl
      rw [hstart''] at hhas' hdisp'
      have hdow'' : dowMon (getMondayOfWeek d'') = 0 :=
        monday_of_week_member s e d'' (by omega) hd''
      have hb'' := hasDays_monday_bounds (getMondayOfWeek d'') (monthIdxOf d)
        hdow'' hK1 hhas'
      have hdec := display_index_decomp (getMondayOfWeek d'') (monthIdxOf d)
        hdow'' hK1 hhas'
      have hdecd := display_index_decomp (getMondayOfWeek d) (monthIdxOf d)
        hμdow hK1 hhasd
      have hμeq : getMondayOfWeek d'' = getMondayOfWeek d := by omega
      rw [hμeq]
    have hlook := lookupWeekForMonth_unique_mem
      (groupIntoWeeks (getDateRange s e) led gid today)
      (monthIdxOf d % 12) (monthIdxOf d / 12)
      (getWeekOfMonthForDisplay (getMondayOfWeek d) (monthIdxOf d))
      (weekFor (getDateRange s e) led gid today (getMondayOfWeek d))
      hwk (by rw [hKsplit]; exact hhasd) (by rw [hKsplit]; rfl) huniq
    rw [hKsplit] at hlook
    have hcond : getMondayOfWeek (getMondayOfWeek d +
        (d - getMondayOfWeek d)) = getMondayOfWeek d ∧
        (getDateRange s e).contains (getMondayOfWeek d +
          (d - getMondayOfWeek d)) := by
      have hplus : getMondayOfWeek d + (d - getMondayOfWeek d) = d := by omega
      rw [hplus]
      exact ⟨rfl, List.elem_iff.mpr hd⟩
    have hdaymem : dayCellFor (getDateRange s e) led gid today
        (getMondayOfWeek d) (d - getMondayOfWeek d) ∈
        (weekFor (getDateRange s e) led gid today (getMondayOfWeek d)).days :=
      (mem_weekFor_days _ _ _ _ _ _).mpr ⟨d - getMondayOfWeek d, by omega, rfl⟩
    have hplus : getMondayOfWeek d + (d - getMondayOfWeek d) = d := by omega
    have hdayval := dayCellFor_real (getDateRange s e) led gid today
      (getMondayOfWeek d) (d - getMondayOfWeek d) hcond
    refine ⟨{ month := monthIdxOf d % 12
              year := monthIdxOf d / 12
              weeks := (getWeekColumnNumbers
                  (groupIntoWeeks (getDateRange s e) led gid today)).map
                fun colNum =>
                  lookupWeekForMonth
                    (groupIntoWeeks (getDateRange s e) led gid today)
                    (monthIdxOf d % 12) (monthIdxOf d / 12) (colNum - 1) },
        ?_,
        some (adjustWeekForMonth
          (weekFor (getDateRange s e) led gid today (getMondayOfWeek d))
          (monthIdxOf d)),
        ?_, _, rfl,
        dayCellFor (getDateRange s e) led gid today (getMondayOfWeek d)
          (d - getMondayOfWeek d),
        ?_, ?_, ?_⟩
    · rw [hgrid, mem_organizeIntoGrid]
      exact ⟨_, hmimem, rfl⟩
    · simp only [List.mem_map]
      refine ⟨getWeekOfMonthForDisplay (getMondayOfWeek d)
        (monthIdxOf d) + 1, hcolmem, ?_⟩
      rw [Nat.add_sub_cancel]
      exact hlook
    · unfold adjustWeekForMonth
      dsimp only
      rw [List.mem_map]
      refine ⟨_, hdaymem, ?_⟩
      rw [if_neg ?_]
      rw [dayCellFor_date, hplus]
      omega
    · rw [dayCellFor_date, hplus]
    · rw [hdayval]

/-- C1 witness: the amended equivalence instantiated for the goal
2024-03-01..2024-03-05 (serials 739311..739315) with empty ledger and
today = 2024-03-03 (serial 739313), at the start date itself. -/
theorem appears_real_iff_display_index_fits_witness :
    366 ≤ 739311 ∧ 739311 ∈ getDateRange 739311 739315 ∧
      (appearsRealInGrid
          (buildGrid (fun _ _ => none) "g" 739311 739315 739313) 739311 ↔
        getWeekOfMonthForDisplay (getMondayOfWeek 739311)
            (monthIdxOf 739311) <
          (getWeekColumnNumbers (groupIntoWeeks (getDateRange 739311 739315)
            (fun _ _ => none) "g" 739313)).length) :=
  ⟨by decide, by decide,
    appears_real_iff_display_index_fits (fun _ _ => none) "g" 739311 739315
      739313 739311 (by decide) (by decide)⟩
